import Mathlib

/-!
Verification development for the roach-bench data generator and benchmark
harness.  The Go sources (`generate.go`, `ddls.go`, and the two `main`
programs) are shallowly embedded: pure functions become Lean functions,
stateful code threads an explicit `tableWriter` value, Go panics become
`Option.none`, and machine integers are modeled by `Nat` (all quantities in
range in this program: primary keys stay below the per-table row targets,
which are flag-supplied `int` values).
-/

set_option maxHeartbeats 1000000

namespace RoachBench

/-! ## Model of the math/rand stream

`rand.New(rand.NewSource(seed))` yields a deterministic stream that is a pure
function of the seed.  The library generator itself is outside this
repository; the program relies only on (a) the stream being a deterministic
function of the seed, consumed one draw at a time, and (b) `Intn n` returning
a value in `[0, n)`.  We model the state as the seed plus the number of draws
made so far, with a fixed concrete mixing function for the raw draws. -/

def rawNext (seed : Int) (pos : Nat) : Nat :=
  (seed.natAbs + pos + 1) * 2654435761 % 4294967296

structure GoRand where
  seed : Int
  pos : Nat
deriving DecidableEq

/-- `rand.New(rand.NewSource(seed))`. -/
def GoRand.new (seed : Int) : GoRand := ⟨seed, 0⟩

/-- `rnd.Intn(n)`: one draw, uniform in `[0, n)`.  Go panics for `n ≤ 0`;
every call site in this program passes a positive bound (62, 42, 4200, or a
flag count that the range claims assume positive), so that case is left as
the degenerate `% 0` identity. -/
def GoRand.intn (r : GoRand) (n : Nat) : Nat × GoRand :=
  (rawNext r.seed r.pos % n, ⟨r.seed, r.pos + 1⟩)

/-! ## Constants (generate.go) -/

def textChars : List Char :=
  "abcdefghijklmnopqrstuvwxyzABCDEFGHIJKLMNOPQRSTUVWXYZ1234567890".toList

def batchSize : Nat := 500
def textLen : Nat := 42
def intMax : Nat := 42
def decMax : Nat := 42

/-! ## Schema catalog (ddls.go) -/

abbrev schemaVariant := String

def Normal : schemaVariant := "normal"
def Interleaved : schemaVariant := "interleaved"

abbrev tableName := String

def Merchant : tableName := "merchant"
def Product : tableName := "product"
def Variant : tableName := "variant"
def Store : tableName := "store"
def ProductInterleaved : tableName := "product (interleaved)"
def VariantInterleaved : tableName := "variant (interleaved)"
def StoreInterleaved : tableName := "store (interleaved)"

/-- `type columnType int`; the five `iota` constants.  Since the Go type is an
integer type, values outside the five named constants exist, which is what the
`default` panic in `genValues` guards against. -/
abbrev columnType := Int

def columnType.Text : columnType := 0
def columnType.Int : columnType := 1
def columnType.Dec : columnType := 2
def columnType.PkeyInt : columnType := 3
def columnType.FkeyInt : columnType := 4

/-- `tableTypes` as it stands after `initDDL` has copied each table's column
types to its interleaved twin.  Unknown keys give the Go map zero value. -/
def tableTypes (t : tableName) : List columnType :=
  if t = Merchant then [columnType.PkeyInt, columnType.Text, columnType.Text]
  else if t = Product then
    [columnType.FkeyInt, columnType.PkeyInt, columnType.Text, columnType.Text]
  else if t = Variant then
    [columnType.FkeyInt, columnType.FkeyInt, columnType.PkeyInt,
     columnType.Text, columnType.Int, columnType.Dec]
  else if t = Store then
    [columnType.FkeyInt, columnType.PkeyInt, columnType.Text, columnType.Text]
  else if t = ProductInterleaved then
    [columnType.FkeyInt, columnType.PkeyInt, columnType.Text, columnType.Text]
  else if t = VariantInterleaved then
    [columnType.FkeyInt, columnType.FkeyInt, columnType.PkeyInt,
     columnType.Text, columnType.Int, columnType.Dec]
  else if t = StoreInterleaved then
    [columnType.FkeyInt, columnType.PkeyInt, columnType.Text, columnType.Text]
  else []

/-- The seven tables `tableTypes` covers after `initDDL`. -/
def allCatalogTables : List tableName :=
  [Merchant, Product, Variant, Store,
   ProductInterleaved, VariantInterleaved, StoreInterleaved]

def variantTables (v : schemaVariant) : List tableName :=
  if v = Normal then [Merchant, Product, Variant, Store]
  else if v = Interleaved then
    [Merchant, ProductInterleaved, VariantInterleaved, StoreInterleaved]
  else []

/-- The flag-supplied configuration consumed by `initDDL` and the generator:
the pseudo-random seed and the per-table row targets. -/
structure Flags where
  seed : Int
  nMerchants : Nat
  nProducts : Nat
  nVariants : Nat
  nStores : Nat
deriving DecidableEq

/-- `tableRows` as populated by `initDDL` (interleaved tables share their
base table's row target; unknown keys give the map zero value). -/
def tableRows (fl : Flags) (t : tableName) : Nat :=
  if t = Merchant then fl.nMerchants
  else if t = Product then fl.nProducts
  else if t = Variant then fl.nVariants
  else if t = Store then fl.nStores
  else if t = ProductInterleaved then fl.nProducts
  else if t = VariantInterleaved then fl.nVariants
  else if t = StoreInterleaved then fl.nStores
  else 0

/-! ## Table writer (generate.go) -/

/-- `tableWriter` without the `*sql.DB` handle and wait group (I/O, not
modeled).  `scratch` and `valuesBuf` are the reusable byte buffers. -/
structure tableWriter where
  pkey : Nat
  table : tableName
  rnd : GoRand
  columnTypes : List columnType
  scratch : List Char
  valuesBuf : List Char
deriving DecidableEq

/-- `newWriter`: fresh stream from the shared seed, primary key counter at 1,
empty scratch buffer, column types from the catalog. -/
def newWriter (fl : Flags) (table : tableName) : tableWriter :=
  { pkey := 1
    table := table
    rnd := GoRand.new fl.seed
    columnTypes := tableTypes table
    scratch := []
    valuesBuf := [] }

/-- `strconv.Itoa` on the natural numbers this program serializes. -/
def itoa (n : Nat) : List Char := (Nat.repr n).toList

/-- The `var temp int; switch tw.table {...}` body of `randFkeyInt`: which
bounded draw the table's foreign-key column `cidx` uses.  `none` is the Go
panic on an unsupported table or column index. -/
def tableWriter.fkeyTemp (fl : Flags) (tw : tableWriter) (cidx : Nat) :
    Option (Nat × GoRand) :=
  if tw.table = Product ∨ tw.table = ProductInterleaved ∨
      tw.table = Store ∨ tw.table = StoreInterleaved then
    let vr := tw.rnd.intn fl.nMerchants
    some (vr.1 + 1, vr.2)
  else if tw.table = Variant ∨ tw.table = VariantInterleaved then
    if cidx = 0 then
      let vr := tw.rnd.intn fl.nMerchants
      some (vr.1 + 1, vr.2)
    else if cidx = 1 then
      let vr := tw.rnd.intn fl.nProducts
      some (vr.1 + 1, vr.2)
    else none
  else none

/-- `randFkeyInt`: serialize the drawn foreign key. -/
def tableWriter.randFkeyInt (fl : Flags) (tw : tableWriter) (cidx : Nat) :
    Option (List Char × tableWriter) :=
  (tw.fkeyTemp fl cidx).map fun vr => (itoa vr.1, { tw with rnd := vr.2 })

/-- `randInt`: `strconv.Itoa(tw.rnd.Intn(intMax))`. -/
def tableWriter.randInt (tw : tableWriter) : List Char × tableWriter :=
  let vr := tw.rnd.intn intMax
  (itoa vr.1, { tw with rnd := vr.2 })

/-- The `for i := 0; i < textLen; i++` body of `randText`: append one
alphabet character per draw. -/
def textLoop : Nat → GoRand → List Char → List Char × GoRand
  | 0, r, scratch => (scratch, r)
  | k + 1, r, scratch =>
    let vr := r.intn textChars.length
    textLoop k vr.2 (scratch ++ [textChars.getD vr.1 ' '])

/-- `randText`: truncate the scratch buffer, wrap `textLen` alphabet
characters in single quotes.  The returned bytes alias the scratch buffer in
Go; here both are the same list value. -/
def tableWriter.randText (tw : tableWriter) : List Char × tableWriter :=
  let scratch := tw.scratch.take 0
  let scratch := scratch ++ ['\'']
  let p := textLoop textLen tw.rnd scratch
  let scratch := p.1 ++ ['\'']
  (scratch, { tw with rnd := p.2, scratch := scratch })

/-- Two-decimal rendering used by `randDec`. -/
def twoFrac (m : Nat) : List Char :=
  (if m < 10 then ['0'] else []) ++ itoa m

/-- `randDec` models `fmt.Sprintf` of `rnd.Float64()*decMax` with exactly two
fractional digits.  Go's `Float64` is float library code outside this
repository; the draw is modeled as one stream draw of a centi-unit value in
`[0, decMax*100)`, which keeps the stream position accounting and the
rendered shape. -/
def tableWriter.randDec (tw : tableWriter) : List Char × tableWriter :=
  let vr := tw.rnd.intn (decMax * 100)
  (itoa (vr.1 / 100) ++ '.' :: twoFrac (vr.1 % 100), { tw with rnd := vr.2 })

/-- One arm of the `switch c` in `genValues`: the serialized cell for column
`cidx` of kind `c`, with the writer state it leaves behind.  `none` is the
`default: panic` arm (and a propagated `randFkeyInt` panic). -/
def tableWriter.genCell (fl : Flags) (tw : tableWriter) (cidx : Nat)
    (c : columnType) : Option (List Char × tableWriter) :=
  if c = columnType.PkeyInt then
    some (itoa tw.pkey, { tw with pkey := tw.pkey + 1 })
  else if c = columnType.FkeyInt then tw.randFkeyInt fl cidx
  else if c = columnType.Int then some tw.randInt
  else if c = columnType.Text then some tw.randText
  else if c = columnType.Dec then some tw.randDec
  else none

/-- The `for i, c := range tw.columnTypes` loop of `genValues`: append each
cell to `values`, comma-separated once `commaValues` is set. -/
def tableWriter.genRow (fl : Flags) :
    tableWriter → List Char → Bool → Nat → List columnType →
      Option (List Char × tableWriter)
  | tw, values, _, _, [] => some (values, tw)
  | tw, values, commaValues, cidx, c :: rest =>
    let values := if commaValues then values ++ [','] else values
    match tw.genCell fl cidx c with
    | none => none
    | some p => tableWriter.genRow fl p.2 (values ++ p.1) true (cidx + 1) rest

/-- The outer `for i := 0; i < nTuples; i++` loop of `genValues`: wrap each
row in parentheses, comma-separated once `commaTuples` is set. -/
def tableWriter.genTuples (fl : Flags) :
    tableWriter → List Char → Bool → Nat → Option (List Char × tableWriter)
  | tw, values, _, 0 => some (values, tw)
  | tw, values, commaTuples, n + 1 =>
    let values := if commaTuples then values ++ [','] else values
    match tw.genRow fl (values ++ ['(']) false 0 tw.columnTypes with
    | none => none
    | some p => tableWriter.genTuples fl p.2 (p.1 ++ [')']) true n

/-- `genValues`: truncate the reused values buffer (`tw.valuesBuf[:0]`) and
run the tuple loop.  `none` is the `panic` on an undefined column type. -/
def tableWriter.genValues (fl : Flags) (tw : tableWriter) (nTuples : Nat) :
    Option (List Char × tableWriter) :=
  tw.genTuples fl (tw.valuesBuf.take 0) false nTuples

/-- The `for remainingRows > 0` loop of `insertData`, returning the sequence
of value fragments submitted to `db.Exec`, in order.  `curBatch` only ever
shrinks in the final iteration.  The `cur = 0` guard is unreachable from
`insertData` (which starts at `batchSize = 500 > 0`) and stands in for the
loop never making progress there. -/
def tableWriter.insertLoop (fl : Flags) (tw : tableWriter)
    (remaining curBatch : Nat) : Option (List (List Char)) :=
  if h0 : remaining = 0 then some []
  else if h1 : (if remaining < curBatch then remaining else curBatch) = 0 then
    some []
  else
    match tw.genValues fl
        (if remaining < curBatch then remaining else curBatch) with
    | none => none
    | some p =>
      match tableWriter.insertLoop fl { p.2 with valuesBuf := p.1 }
          (remaining - (if remaining < curBatch then remaining else curBatch))
          (if remaining < curBatch then remaining else curBatch) with
      | none => none
      | some rest => some (p.1 :: rest)
termination_by remaining
decreasing_by
  omega

/-- `insertData`: consume the table's full row target starting from the
constant batch size. -/
def insertData (fl : Flags) (tw : tableWriter) : Option (List (List Char)) :=
  tw.insertLoop fl (tableRows fl tw.table) batchSize

/-- The batch sizes the `insertData` loop hands to `genValues`, extracted
from the same loop structure. -/
def loopSizes (remaining curBatch : Nat) : List Nat :=
  if h0 : remaining = 0 then []
  else if h1 : (if remaining < curBatch then remaining else curBatch) = 0 then
    []
  else
    (if remaining < curBatch then remaining else curBatch) ::
      loopSizes
        (remaining - (if remaining < curBatch then remaining else curBatch))
        (if remaining < curBatch then remaining else curBatch)
termination_by remaining
decreasing_by
  omega

/-- Run `genValues` once per requested batch size, threading the writer the
way `insertData` does (`tw.valuesBuf = tw.genValues(...)`). -/
def tableWriter.genSeq (fl : Flags) :
    tableWriter → List Nat → Option (List (List Char))
  | _, [] => some []
  | tw, k :: ks =>
    match tw.genValues fl k with
    | none => none
    | some p =>
      match tableWriter.genSeq fl { p.2 with valuesBuf := p.1 } ks with
      | none => none
      | some rest => some (p.1 :: rest)

/-! ## Concurrent generation (generateData)

`generateData` spawns one goroutine per table; each owns its writer, its
remaining-row count, its batch size, and the list of value fragments it has
submitted.  A schedule is the order in which the scheduler lets the table
goroutines run loop iterations; `stepTable` is one iteration of the
`insertData` loop, and `runSched` plays out a schedule over the per-table
states.  A `genValues` panic kills the goroutine (`dead`). -/

structure TState where
  tw : tableWriter
  remaining : Nat
  curBatch : Nat
  out : List (List Char)
  dead : Bool
deriving DecidableEq

/-- The per-table state `generateData`/`newWriter`/`insertData` start from. -/
def initTState (fl : Flags) (t : tableName) : TState :=
  { tw := newWriter fl t
    remaining := tableRows fl t
    curBatch := batchSize
    out := []
    dead := false }

/-- One iteration of a table goroutine's `insertData` loop. -/
def stepTable (fl : Flags) (s : TState) : TState :=
  if s.dead then s
  else if s.remaining = 0 then s
  else if (if s.remaining < s.curBatch then s.remaining else s.curBatch) = 0
    then s
  else
    match s.tw.genValues fl
        (if s.remaining < s.curBatch then s.remaining else s.curBatch) with
    | none => { s with dead := true }
    | some p =>
      { tw := { p.2 with valuesBuf := p.1 }
        remaining := s.remaining -
          (if s.remaining < s.curBatch then s.remaining else s.curBatch)
        curBatch := if s.remaining < s.curBatch then s.remaining else s.curBatch
        out := s.out ++ [p.1]
        dead := false }

/-- Play a schedule: each entry lets the named table's goroutine run one loop
iteration.  Writers share no mutable state, so a step touches only its own
table's entry. -/
def runSched (fl : Flags) : List tableName → (tableName → TState) →
    tableName → TState
  | [], st => st
  | t :: rest, st =>
    runSched fl rest fun u => if u = t then stepTable fl (st t) else st u

/-! ## Derived shape of a generated batch

`rowCells`/`tupleRows` compute the individual cells and rows a `genValues`
call produces; the characterization lemmas below show `genValues` renders
exactly these rows into its reused buffer. -/

/-- The cells of one row, in column order, with the writer state left
behind. -/
def tableWriter.rowCells (fl : Flags) :
    tableWriter → Nat → List columnType →
      Option (List (List Char) × tableWriter)
  | tw, _, [] => some ([], tw)
  | tw, cidx, c :: rest =>
    match tw.genCell fl cidx c with
    | none => none
    | some p =>
      match tableWriter.rowCells fl p.2 (cidx + 1) rest with
      | none => none
      | some q => some (p.1 :: q.1, q.2)

/-- The rows of one `genValues` call, each a list of cells. -/
def tableWriter.tupleRows (fl : Flags) :
    tableWriter → Nat → Option (List (List (List Char)) × tableWriter)
  | tw, 0 => some ([], tw)
  | tw, n + 1 =>
    match tw.rowCells fl 0 tw.columnTypes with
    | none => none
    | some p =>
      match tableWriter.tupleRows fl p.2 n with
      | none => none
      | some q => some (p.1 :: q.1, q.2)

/-- Join pieces with a comma before each piece when the flag is set, and
between pieces afterwards — the `commaValues`/`commaTuples` discipline. -/
def joinComma : Bool → List (List Char) → List Char
  | _, [] => []
  | true, c :: rest => ',' :: (c ++ joinComma true rest)
  | false, c :: rest => c ++ joinComma true rest

/-- One row as `genValues` serializes it: parenthesized, comma-separated. -/
def renderRow (cells : List (List Char)) : List Char :=
  ['('] ++ joinComma false cells ++ [')']

/-- A whole batch as `genValues` serializes it. -/
def renderRows (rows : List (List (List Char))) : List Char :=
  joinComma false (rows.map renderRow)

/-- The rows of every batch of a `genSeq` run, threading the writer the way
`insertData` does. -/
def tableWriter.batchRows (fl : Flags) :
    tableWriter → List Nat → Option (List (List (List (List Char))))
  | _, [] => some []
  | tw, k :: ks =>
    match tw.tupleRows fl k with
    | none => none
    | some p =>
      match tableWriter.batchRows fl
          { p.2 with valuesBuf := renderRows p.1 } ks with
      | none => none
      | some rest => some (p.1 :: rest)

/-- The cells of a row that sit in a `PkeyInt` column, in column order. -/
def pkeyCellsOf : List columnType → List (List Char) → List (List Char)
  | c :: cols, v :: vs =>
    (if c = columnType.PkeyInt then [v] else []) ++ pkeyCellsOf cols vs
  | _, _ => []

/-- The five column kinds `genValues` recognizes; anything else hits the
`default: panic` arm. -/
def isRecognizedKind (c : columnType) : Prop :=
  c = columnType.Text ∨ c = columnType.Int ∨ c = columnType.Dec ∨
    c = columnType.PkeyInt ∨ c = columnType.FkeyInt

instance (c : columnType) : Decidable (isRecognizedKind c) := by
  unfold isRecognizedKind; infer_instance

/-! ## Connection-pool sizing and the operation counter (part_000)

The repository holds two `main` programs.  The loader program's `main` and
the benchmark program's `connectDB` each size the process's connection pool
with its own `SetMaxOpenConns`/`SetMaxIdleConns` call; both use
`len(variantTables[schemaVar]) + 1`. -/

/-- Pool size set by the loader program's `main` (data-generation phase). -/
def loaderMaxOpenConns (v : schemaVariant) : Nat :=
  (variantTables v).length + 1

/-- Pool size set by the benchmark program's `connectDB`, the pool the
`concurrency` workers share. -/
def connectDBMaxOpenConns (v : schemaVariant) : Nat :=
  (variantTables v).length + 1

/-- Synchronization kind of one access to the shared `numOps` counter. -/
inductive SyncKind
  | atomic
  | plain
deriving DecidableEq

/-- The three reads of `numOps` performed by the benchmark program's main
goroutine (the reporting loop and final summaries), in source order:
the deferred ns/op summary uses `atomic.LoadUint64`, the per-tick report
reads `ops := numOps` with a plain load, and the done-branch summary uses
`atomic.LoadUint64`. -/
def numOpsReportReads : List SyncKind :=
  [SyncKind.atomic, SyncKind.plain, SyncKind.atomic]

/-- A small concrete flag set used for spot checks: seed 42, two rows per
table. -/
def flSmall : Flags := ⟨42, 2, 2, 2, 2⟩

/-- A writer whose descriptor holds the unrecognized column kind `7`. -/
def twBadKind : tableWriter :=
  { newWriter flSmall Merchant with columnTypes := [(7 : columnType)] }

/-! ## Characterization lemmas -/

theorem genCell_some {fl : Flags} {tw : tableWriter} {cidx : Nat}
    {c : columnType} {temp : List Char} {tw' : tableWriter}
    (h : tw.genCell fl cidx c = some (temp, tw')) :
    tw'.table = tw.table ∧ tw'.columnTypes = tw.columnTypes ∧
      tw'.valuesBuf = tw.valuesBuf ∧
      tw'.pkey = tw.pkey + (if c = columnType.PkeyInt then 1 else 0) ∧
      (c = columnType.PkeyInt → temp = itoa tw.pkey) := by
  unfold tableWriter.genCell at h
  split at h
  · rename_i hc
    simp only [Option.some.injEq, Prod.mk.injEq] at h
    obtain ⟨h1, h2⟩ := h
    subst h2
    simp [hc, h1.symm]
  · rename_i hc
    split at h
    · rename_i hf
      unfold tableWriter.randFkeyInt at h
      rw [Option.map_eq_some'] at h
      obtain ⟨vr, _, hmk⟩ := h
      simp only [Prod.mk.injEq] at hmk
      obtain ⟨_, h2⟩ := hmk
      subst h2
      simp [hc]
    · split at h
      · rename_i hi
        simp only [Option.some.injEq] at h
        have h2 : tw' = (tw.randInt).2 := by rw [h]
        subst h2
        simp [tableWriter.randInt, hc]
      · split at h
        · rename_i ht
          simp only [Option.some.injEq] at h
          have h2 : tw' = (tw.randText).2 := by rw [h]
          subst h2
          simp [tableWriter.randText, hc]
        · split at h
          · rename_i hd
            simp only [Option.some.injEq] at h
            have h2 : tw' = (tw.randDec).2 := by rw [h]
            subst h2
            simp [tableWriter.randDec, hc]
          · simp at h

theorem genCell_none_of_unrecognized {fl : Flags} {tw : tableWriter}
    {cidx : Nat} {c : columnType} (h : ¬ isRecognizedKind c) :
    tw.genCell fl cidx c = none := by
  unfold isRecognizedKind at h
  push_neg at h
  obtain ⟨h1, h2, h3, h4, h5⟩ := h
  unfold tableWriter.genCell
  simp [h1, h2, h3, h4, h5]

theorem genRow_eq (fl : Flags) :
    ∀ (cols : List columnType) (tw : tableWriter) (values : List Char)
      (b : Bool) (cidx : Nat),
      tableWriter.genRow fl tw values b cidx cols
        = (tableWriter.rowCells fl tw cidx cols).map
            fun p => (values ++ joinComma b p.1, p.2) := by
  intro cols
  induction cols with
  | nil =>
    intro tw values b cidx
    cases b <;> simp [tableWriter.genRow, tableWriter.rowCells, joinComma]
  | cons c rest ih =>
    intro tw values b cidx
    simp only [tableWriter.genRow, tableWriter.rowCells]
    cases hgc : tw.genCell fl cidx c with
    | none => simp
    | some p =>
      simp only []
      rw [ih]
      cases hrc : tableWriter.rowCells fl p.2 (cidx + 1) rest with
      | none => simp
      | some q =>
        cases b <;> simp [joinComma, List.append_assoc]

theorem rowCells_some (fl : Flags) :
    ∀ (cols : List columnType) (tw : tableWriter) (cidx : Nat)
      (cs : List (List Char)) (tw' : tableWriter),
      tableWriter.rowCells fl tw cidx cols = some (cs, tw') →
      cs.length = cols.length ∧
      tw'.table = tw.table ∧ tw'.columnTypes = tw.columnTypes ∧
      tw'.valuesBuf = tw.valuesBuf ∧
      tw'.pkey = tw.pkey + cols.count columnType.PkeyInt ∧
      pkeyCellsOf cols cs
        = (List.range' tw.pkey (cols.count columnType.PkeyInt)).map itoa := by
  intro cols
  induction cols with
  | nil =>
    intro tw cidx cs tw' h
    simp only [tableWriter.rowCells, Option.some.injEq, Prod.mk.injEq] at h
    obtain ⟨h1, h2⟩ := h
    subst h2
    simp [← h1, pkeyCellsOf]
  | cons c rest ih =>
    intro tw cidx cs tw' h
    cases hgc : tw.genCell fl cidx c with
    | none =>
      simp only [tableWriter.rowCells, hgc] at h
      exact Option.noConfusion h
    | some p =>
      cases hrc : tableWriter.rowCells fl p.2 (cidx + 1) rest with
      | none =>
        simp only [tableWriter.rowCells, hgc, hrc] at h
        exact Option.noConfusion h
      | some q =>
        simp only [tableWriter.rowCells, hgc, hrc, Option.some.injEq,
          Prod.mk.injEq] at h
        obtain ⟨h1, h2⟩ := h
        subst h2
        obtain ⟨hlen, htab, hcols, hbuf, hpk, hcells⟩ := ih p.2 (cidx + 1) q.1 q.2 hrc
        obtain ⟨gtab, gcols, gbuf, gpk, gtemp⟩ := genCell_some hgc
        subst h1
        refine ⟨by simp [hlen], by rw [htab, gtab], by rw [hcols, gcols],
          by rw [hbuf, gbuf], ?_, ?_⟩
        · rw [hpk, gpk, List.count_cons]
          by_cases hc : c = columnType.PkeyInt <;> simp [hc] <;> try omega
        · by_cases hc : c = columnType.PkeyInt
          · have hcnt : (c :: rest).count columnType.PkeyInt
                = rest.count columnType.PkeyInt + 1 := by
              simp [List.count_cons, hc]
            have hr : List.range' tw.pkey (rest.count columnType.PkeyInt + 1)
                = tw.pkey ::
                    List.range' (tw.pkey + 1) (rest.count columnType.PkeyInt) := by
              simpa using List.range'_succ tw.pkey
                (rest.count columnType.PkeyInt) 1
            simp only [pkeyCellsOf, if_pos hc, List.singleton_append, hcnt, hr,
              List.map_cons]
            rw [hcells, gpk, if_pos hc, gtemp hc]
          · have hcnt : (c :: rest).count columnType.PkeyInt
                = rest.count columnType.PkeyInt := by
              simp [List.count_cons, hc]
            simp only [pkeyCellsOf, if_neg hc, List.nil_append, hcnt]
            rw [hcells, gpk, if_neg hc]
            simp

theorem tupleRows_some (fl : Flags) :
    ∀ (n : Nat) (tw : tableWriter) (rows : List (List (List Char)))
      (tw' : tableWriter),
      tableWriter.tupleRows fl tw n = some (rows, tw') →
      rows.length = n ∧
      tw'.table = tw.table ∧ tw'.columnTypes = tw.columnTypes ∧
      tw'.valuesBuf = tw.valuesBuf ∧
      (∀ r ∈ rows, r.length = tw.columnTypes.length) ∧
      tw'.pkey = tw.pkey + n * tw.columnTypes.count columnType.PkeyInt ∧
      (rows.map (pkeyCellsOf tw.columnTypes)).flatten
        = (List.range' tw.pkey
            (n * tw.columnTypes.count columnType.PkeyInt)).map itoa := by
  intro n
  induction n with
  | zero =>
    intro tw rows tw' h
    simp only [tableWriter.tupleRows, Option.some.injEq, Prod.mk.injEq] at h
    obtain ⟨h1, h2⟩ := h
    subst h2
    simp [← h1]
  | succ n ih =>
    intro tw rows tw' h
    cases hrc : tw.rowCells fl 0 tw.columnTypes with
    | none =>
      simp only [tableWriter.tupleRows, hrc] at h
      exact Option.noConfusion h
    | some p =>
      cases htr : tableWriter.tupleRows fl p.2 n with
      | none =>
        simp only [tableWriter.tupleRows, hrc, htr] at h
        exact Option.noConfusion h
      | some q =>
        simp only [tableWriter.tupleRows, hrc, htr, Option.some.injEq,
          Prod.mk.injEq] at h
        obtain ⟨h1, h2⟩ := h
        subst h2
        obtain ⟨rlen, rtab, rcols, rbuf, rpk, rcells⟩ :=
          rowCells_some fl tw.columnTypes tw 0 p.1 p.2 hrc
        obtain ⟨qlen, qtab, qcols, qbuf, qrows, qpk, qcells⟩ :=
          ih p.2 q.1 q.2 htr
        subst h1
        rw [rcols] at qcols qrows qpk qcells
        refine ⟨by simp [qlen], by rw [qtab, rtab], by rw [qcols],
          by rw [qbuf, rbuf], ?_, ?_, ?_⟩
        · intro r hr
          rcases List.mem_cons.mp hr with h | h
          · subst h; exact rlen
          · exact qrows r h
        · rw [qpk, rpk, Nat.succ_mul]
          omega
        · have happ :
              List.range' tw.pkey (tw.columnTypes.count columnType.PkeyInt) ++
                List.range' (tw.pkey + tw.columnTypes.count columnType.PkeyInt)
                  (n * tw.columnTypes.count columnType.PkeyInt)
              = List.range' tw.pkey
                  (n * tw.columnTypes.count columnType.PkeyInt +
                    tw.columnTypes.count columnType.PkeyInt) := by
            simpa using List.range'_append tw.pkey
              (tw.columnTypes.count columnType.PkeyInt)
              (n * tw.columnTypes.count columnType.PkeyInt) 1
          rw [List.map_cons, List.flatten_cons, rcells, qcells, rpk,
            ← List.map_append, happ, Nat.succ_mul]

theorem genTuples_eq (fl : Flags) :
    ∀ (n : Nat) (tw : tableWriter) (values : List Char) (b : Bool),
      tableWriter.genTuples fl tw values b n
        = (tableWriter.tupleRows fl tw n).map
            fun p => (values ++ joinComma b (p.1.map renderRow), p.2) := by
  intro n
  induction n with
  | zero =>
    intro tw values b
    cases b <;> simp [tableWriter.genTuples, tableWriter.tupleRows, joinComma]
  | succ n ih =>
    intro tw values b
    simp only [tableWriter.genTuples]
    rw [genRow_eq]
    cases hrc : tw.rowCells fl 0 tw.columnTypes with
    | none => simp [tableWriter.tupleRows, hrc]
    | some p =>
      simp only [tableWriter.tupleRows, hrc, Option.map_some']
      rw [ih]
      cases htr : tableWriter.tupleRows fl p.2 n with
      | none => simp
      | some q =>
        simp only [Option.map_some']
        cases b <;>
          simp [joinComma, renderRow, List.append_assoc]

theorem genValues_eq (fl : Flags) (tw : tableWriter) (n : Nat) :
    tw.genValues fl n
      = (tableWriter.tupleRows fl tw n).map fun p => (renderRows p.1, p.2) := by
  unfold tableWriter.genValues
  rw [genTuples_eq]
  simp [renderRows]

theorem genSeq_eq (fl : Flags) :
    ∀ (ks : List Nat) (tw : tableWriter),
      tw.genSeq fl ks = (tw.batchRows fl ks).map (List.map renderRows) := by
  intro ks
  induction ks with
  | nil => intro tw; simp [tableWriter.genSeq, tableWriter.batchRows]
  | cons k ks ih =>
    intro tw
    simp only [tableWriter.genSeq, tableWriter.batchRows]
    rw [genValues_eq]
    cases htr : tw.tupleRows fl k with
    | none => simp
    | some p =>
      simp only [Option.map_some']
      rw [ih]
      cases hbr : tableWriter.batchRows fl
          { p.2 with valuesBuf := renderRows p.1 } ks with
      | none => simp [hbr]
      | some rest => simp [hbr]

theorem batchRows_some (fl : Flags) :
    ∀ (ks : List Nat) (tw : tableWriter)
      (batches : List (List (List (List Char)))),
      tw.batchRows fl ks = some batches →
      batches.length = ks.length ∧
      ((batches.flatten).map (pkeyCellsOf tw.columnTypes)).flatten
        = (List.range' tw.pkey
            (ks.sum * tw.columnTypes.count columnType.PkeyInt)).map itoa := by
  intro ks
  induction ks with
  | nil =>
    intro tw batches h
    simp only [tableWriter.batchRows, Option.some.injEq] at h
    subst h
    simp
  | cons k ks ih =>
    intro tw batches h
    cases htr : tw.tupleRows fl k with
    | none =>
      simp only [tableWriter.batchRows, htr] at h
      exact Option.noConfusion h
    | some p =>
      cases hbr : tableWriter.batchRows fl
          { p.2 with valuesBuf := renderRows p.1 } ks with
      | none =>
        simp only [tableWriter.batchRows, htr, hbr] at h
        exact Option.noConfusion h
      | some rest =>
        simp only [tableWriter.batchRows, htr, hbr, Option.some.injEq] at h
        subst h
        obtain ⟨tlen, ttab, tcols, tbuf, trows, tpk, tcells⟩ :=
          tupleRows_some fl k tw p.1 p.2 htr
        obtain ⟨rlen, rcells⟩ :=
          ih { p.2 with valuesBuf := renderRows p.1 } rest hbr
        have hcols2 : ({ p.2 with valuesBuf := renderRows p.1 } :
            tableWriter).columnTypes = tw.columnTypes := tcols
        have hpk2 : ({ p.2 with valuesBuf := renderRows p.1 } :
            tableWriter).pkey
            = tw.pkey + k * tw.columnTypes.count columnType.PkeyInt := tpk
        rw [hcols2, hpk2] at rcells
        refine ⟨by simp [rlen], ?_⟩
        have happ :
            List.range' tw.pkey
                (k * tw.columnTypes.count columnType.PkeyInt) ++
              List.range'
                (tw.pkey + k * tw.columnTypes.count columnType.PkeyInt)
                (ks.sum * tw.columnTypes.count columnType.PkeyInt)
            = List.range' tw.pkey
                (ks.sum * tw.columnTypes.count columnType.PkeyInt +
                  k * tw.columnTypes.count columnType.PkeyInt) := by
          simpa using List.range'_append tw.pkey
            (k * tw.columnTypes.count columnType.PkeyInt)
            (ks.sum * tw.columnTypes.count columnType.PkeyInt) 1
        have hsum : (k + ks.sum) * tw.columnTypes.count columnType.PkeyInt
            = ks.sum * tw.columnTypes.count columnType.PkeyInt +
                k * tw.columnTypes.count columnType.PkeyInt := by
          rw [Nat.add_mul]; omega
        rw [List.flatten_cons, List.map_append, List.flatten_append, tcells,
          rcells, ← List.map_append, happ, List.sum_cons, hsum]

theorem insertLoop_eq_genSeq (fl : Flags) (remaining : Nat) :
    ∀ (tw : tableWriter) (curBatch : Nat),
      tw.insertLoop fl remaining curBatch
        = tw.genSeq fl (loopSizes remaining curBatch) := by
  induction remaining using Nat.strong_induction_on with
  | _ remaining ih =>
    intro tw curBatch
    unfold tableWriter.insertLoop loopSizes
    by_cases h0 : remaining = 0
    · simp [h0, tableWriter.genSeq]
    · simp only [dif_neg h0]
      by_cases h1 : (if remaining < curBatch then remaining else curBatch) = 0
      · simp [dif_pos h1, tableWriter.genSeq]
      · simp only [dif_neg h1, tableWriter.genSeq]
        have hlt : remaining -
            (if remaining < curBatch then remaining else curBatch)
            < remaining := by omega
        cases hg : tw.genValues fl
            (if remaining < curBatch then remaining else curBatch) with
        | none => rfl
        | some p =>
          dsimp only
          rw [ih _ hlt]

theorem loopSizes_zero (curBatch : Nat) : loopSizes 0 curBatch = [] := by
  unfold loopSizes
  simp

theorem loopSizes_eq (curBatch : Nat) (hcb : 0 < curBatch) :
    ∀ remaining : Nat,
      loopSizes remaining curBatch
        = List.replicate (remaining / curBatch) curBatch ++
            (if remaining % curBatch = 0 then []
             else [remaining % curBatch]) := by
  intro remaining
  induction remaining using Nat.strong_induction_on with
  | _ remaining ih =>
    by_cases h0 : remaining = 0
    · subst h0
      simp [loopSizes_zero]
    · by_cases hlt : remaining < curBatch
      · have hdiv : remaining / curBatch = 0 := Nat.div_eq_of_lt hlt
        have hmod : remaining % curBatch = remaining := Nat.mod_eq_of_lt hlt
        unfold loopSizes
        simp only [dif_neg h0, if_pos hlt, Nat.sub_self]
        rw [loopSizes_zero, hdiv, hmod, if_neg h0]
        simp
      · have hle : curBatch ≤ remaining := Nat.le_of_not_lt hlt
        have hlt2 : remaining - curBatch < remaining := by omega
        unfold loopSizes
        simp only [dif_neg h0, if_neg hlt]
        rw [dif_neg (by omega : ¬ curBatch = 0), ih _ hlt2,
          Nat.div_eq_sub_div hcb hle, Nat.mod_eq_sub_mod hle,
          List.replicate_succ]
        simp

theorem genRow_none_of_bad (fl : Flags) :
    ∀ (cols : List columnType) (tw : tableWriter) (values : List Char)
      (b : Bool) (cidx : Nat),
      (∃ c ∈ cols, ¬ isRecognizedKind c) →
      tableWriter.genRow fl tw values b cidx cols = none := by
  intro cols
  induction cols with
  | nil =>
    intro tw values b cidx h
    obtain ⟨c, hc, _⟩ := h
    exact absurd hc (List.not_mem_nil c)
  | cons c rest ih =>
    intro tw values b cidx h
    simp only [tableWriter.genRow]
    obtain ⟨c0, hc0, hbad⟩ := h
    rcases List.mem_cons.mp hc0 with he | hmem
    · subst he
      rw [genCell_none_of_unrecognized hbad]
    · cases hgc : tw.genCell fl cidx c with
      | none => rfl
      | some p =>
        dsimp only
        exact ih p.2 _ true (cidx + 1) ⟨c0, hmem, hbad⟩

theorem genCell_setBuf (fl : Flags) (tw : tableWriter) (cidx : Nat)
    (c : columnType) (bu : List Char) :
    tableWriter.genCell fl { tw with valuesBuf := bu } cidx c
      = (tw.genCell fl cidx c).map
          fun p => (p.1, { p.2 with valuesBuf := bu }) := by
  obtain ⟨pk, tb, rn, ct, sc, vb⟩ := tw
  unfold tableWriter.genCell tableWriter.randFkeyInt tableWriter.fkeyTemp
    tableWriter.randInt tableWriter.randText tableWriter.randDec
  dsimp only
  repeat' split
  all_goals rfl

theorem rowCells_setBuf (fl : Flags) :
    ∀ (cols : List columnType) (tw : tableWriter) (cidx : Nat)
      (bu : List Char),
      tableWriter.rowCells fl { tw with valuesBuf := bu } cidx cols
        = (tableWriter.rowCells fl tw cidx cols).map
            fun p => (p.1, { p.2 with valuesBuf := bu }) := by
  intro cols
  induction cols with
  | nil =>
    intro tw cidx bu
    simp [tableWriter.rowCells]
  | cons c rest ih =>
    intro tw cidx bu
    simp only [tableWriter.rowCells]
    rw [genCell_setBuf]
    cases hgc : tw.genCell fl cidx c with
    | none => simp
    | some p =>
      simp only [Option.map_some']
      rw [ih]
      cases hrc : tableWriter.rowCells fl p.2 (cidx + 1) rest with
      | none => simp
      | some q => simp

theorem tupleRows_setBuf (fl : Flags) :
    ∀ (n : Nat) (tw : tableWriter) (bu : List Char),
      tableWriter.tupleRows fl { tw with valuesBuf := bu } n
        = (tableWriter.tupleRows fl tw n).map
            fun p => (p.1, { p.2 with valuesBuf := bu }) := by
  intro n
  induction n with
  | zero =>
    intro tw bu
    simp [tableWriter.tupleRows]
  | succ n ih =>
    intro tw bu
    simp only [tableWriter.tupleRows]
    have hct : ({ tw with valuesBuf := bu } : tableWriter).columnTypes
        = tw.columnTypes := rfl
    rw [hct, rowCells_setBuf]
    cases hrc : tw.rowCells fl 0 tw.columnTypes with
    | none => simp
    | some p =>
      simp only [Option.map_some']
      rw [ih]
      cases htr : tableWriter.tupleRows fl p.2 n with
      | none => simp
      | some q => simp

theorem genValues_setBuf (fl : Flags) (tw : tableWriter) (n : Nat)
    (bu : List Char) :
    tableWriter.genValues fl { tw with valuesBuf := bu } n
      = (tw.genValues fl n).map
          fun p => (p.1, { p.2 with valuesBuf := bu }) := by
  rw [genValues_eq, genValues_eq, tupleRows_setBuf]
  cases htr : tableWriter.tupleRows fl tw n with
  | none => rfl
  | some p => rfl

theorem stepTable_fixed {fl : Flags} {s : TState} (h : s.remaining = 0) :
    stepTable fl s = s := by
  cases hd : s.dead <;> simp [stepTable, hd, h]

theorem runSched_eq_iterate (fl : Flags) :
    ∀ (sched : List tableName) (st : tableName → TState) (t : tableName),
      runSched fl sched st t = (stepTable fl)^[sched.count t] (st t) := by
  intro sched
  induction sched with
  | nil =>
    intro st t
    simp [runSched]
  | cons u rest ih =>
    intro st t
    simp only [runSched]
    rw [ih]
    by_cases he : t = u
    · subst he
      have hcnt : (t :: rest).count t = rest.count t + 1 := by
        simp [List.count_cons]
      rw [hcnt, if_pos rfl, Function.iterate_succ_apply]
    · have hne : ¬ u = t := fun hh => he hh.symm
      have hcnt : (u :: rest).count t = rest.count t := by
        simp [List.count_cons, hne]
      rw [hcnt, if_neg he]

theorem iterate_stab {α : Type} (f : α → α) (x : α) (P : α → Prop)
    (hP : ∀ y, P y → f y = y) :
    ∀ {m n : Nat}, P (f^[m] x) → P (f^[n] x) → f^[m] x = f^[n] x := by
  have key : ∀ (m k : Nat), P (f^[m] x) → f^[m + k] x = f^[m] x := by
    intro m k hm
    rw [Nat.add_comm, Function.iterate_add_apply]
    exact Function.iterate_fixed (hP _ hm) k
  intro m n hm hn
  rcases Nat.le_total m n with h | h
  · obtain ⟨k, rfl⟩ := Nat.exists_eq_add_of_le h
    exact (key m k hm).symm
  · obtain ⟨k, rfl⟩ := Nat.exists_eq_add_of_le h
    exact key n k hn

theorem iterate_step_insertLoop (fl : Flags) :
    ∀ (k : Nat) (s : TState), s.dead = false →
      ((stepTable fl)^[k] s).remaining = 0 →
      ∃ bufs, s.tw.insertLoop fl s.remaining s.curBatch = some bufs ∧
        ((stepTable fl)^[k] s).out = s.out ++ bufs := by
  intro k
  induction k with
  | zero =>
    intro s hd h
    rw [Function.iterate_zero_apply] at h ⊢
    refine ⟨[], ?_, by simp⟩
    unfold tableWriter.insertLoop
    rw [dif_pos h]
  | succ k ih =>
    intro s hd h
    rw [Function.iterate_succ_apply] at h ⊢
    have hdm : ¬ (s.dead = true) := by simp [hd]
    by_cases h0 : s.remaining = 0
    · have hfix : stepTable fl s = s := stepTable_fixed h0
      rw [hfix] at h ⊢
      exact ih s hd h
    · by_cases h1 :
          (if s.remaining < s.curBatch then s.remaining else s.curBatch) = 0
      · have hfix : stepTable fl s = s := by
          unfold stepTable
          rw [if_neg hdm, if_neg h0, if_pos h1]
        rw [hfix] at h
        rw [Function.iterate_fixed hfix k] at h
        exact absurd h h0
      · cases hg : s.tw.genValues fl
            (if s.remaining < s.curBatch then s.remaining else s.curBatch) with
        | none =>
          have hstep : stepTable fl s = { s with dead := true } := by
            unfold stepTable
            rw [if_neg hdm, if_neg h0, if_neg h1, hg]
          have hfix : stepTable fl { s with dead := true }
              = { s with dead := true } := by
            unfold stepTable
            simp
          rw [hstep, Function.iterate_fixed hfix k] at h
          exact absurd h h0
        | some p =>
          have hstep : stepTable fl s =
              { tw := { p.2 with valuesBuf := p.1 }
                remaining := s.remaining -
                  (if s.remaining < s.curBatch then s.remaining
                   else s.curBatch)
                curBatch :=
                  if s.remaining < s.curBatch then s.remaining else s.curBatch
                out := s.out ++ [p.1]
                dead := false } := by
            unfold stepTable
            rw [if_neg hdm, if_neg h0, if_neg h1, hg]
          rw [hstep] at h ⊢
          obtain ⟨bufs, hloop, hout⟩ := ih _ rfl h
          refine ⟨p.1 :: bufs, ?_, ?_⟩
          · unfold tableWriter.insertLoop
            rw [dif_neg h0, dif_neg h1, hg]
            dsimp only
            rw [hloop]
          · rw [hout]
            simp

/-- Every catalog table has exactly one `PkeyInt` column. -/
theorem catalog_count_pkey :
    ∀ t ∈ allCatalogTables, (tableTypes t).count columnType.PkeyInt = 1 := by
  decide

/-! ## Claims -/

/-- C1: for every seed and flag set, generating a table's row values is
deterministic and independent of how the concurrent per-table writers are
scheduled: any two schedules under which table `t` reaches its row target
leave byte-identical sequences of submitted value fragments, and both equal
the unique value of the sequential `insertData` function — because each
writer's stream is created privately from the seed in `newWriter` and
consumed in a fixed per-row order, no step of another table touches it. -/
theorem generation_schedule_independent (fl : Flags) (t : tableName)
    (s1 s2 : List tableName)
    (h1 : (runSched fl s1 (initTState fl) t).remaining = 0)
    (h2 : (runSched fl s2 (initTState fl) t).remaining = 0) :
    (runSched fl s1 (initTState fl) t).out
      = (runSched fl s2 (initTState fl) t).out ∧
    ∃ bufs, insertData fl (newWriter fl t) = some bufs ∧
      (runSched fl s1 (initTState fl) t).out = bufs := by
  have e1 := runSched_eq_iterate fl s1 (initTState fl) t
  have e2 := runSched_eq_iterate fl s2 (initTState fl) t
  rw [e1] at h1
  rw [e2] at h2
  have heq := iterate_stab (stepTable fl) (initTState fl t)
    (fun y => y.remaining = 0) (fun y hy => stepTable_fixed hy) h1 h2
  obtain ⟨bufs, hloop, hout⟩ :=
    iterate_step_insertLoop fl (s1.count t) (initTState fl t) rfl h1
  simp only [initTState] at hloop
  refine ⟨by rw [e1, e2, heq], bufs, ?_, by rw [e1, hout]; simp [initTState]⟩
  unfold insertData
  have ht : (newWriter fl t).table = t := rfl
  rw [ht]
  exact hloop

/-- Spot check of `generation_schedule_independent` at seed 42: the
schedules `[merchant]` and `[store, merchant, product]` both complete the
merchant table and agree. -/
theorem generation_schedule_independent_witness :
    (runSched flSmall [Merchant] (initTState flSmall) Merchant).remaining
        = 0 ∧
    (runSched flSmall [Store, Merchant, Product]
        (initTState flSmall) Merchant).remaining = 0 ∧
    ((runSched flSmall [Merchant] (initTState flSmall) Merchant).out
      = (runSched flSmall [Store, Merchant, Product]
          (initTState flSmall) Merchant).out ∧
     ∃ bufs, insertData flSmall (newWriter flSmall Merchant) = some bufs ∧
       (runSched flSmall [Merchant] (initTState flSmall) Merchant).out
         = bufs) :=
  ⟨by decide, by decide,
    generation_schedule_independent flSmall Merchant [Merchant]
      [Store, Merchant, Product] (by decide) (by decide)⟩

/-- C2: every foreign-key value drawn by `randFkeyInt` lies in `[1, P]` for
the governing parent count `P`: the product/store tables (plain and
interleaved) draw the merchant id from `[1, nMerchants]`; the variant tables
draw column 0 from `[1, nMerchants]` and column 1 from `[1, nProducts]`. -/
theorem fkey_in_range (fl : Flags) (tw : tableWriter) (cidx : Nat)
    (hm : 0 < fl.nMerchants) (hp : 0 < fl.nProducts) :
    ((tw.table = Product ∨ tw.table = ProductInterleaved ∨
        tw.table = Store ∨ tw.table = StoreInterleaved) →
      ∃ v r, tw.fkeyTemp fl cidx = some (v, r) ∧
        1 ≤ v ∧ v ≤ fl.nMerchants) ∧
    ((tw.table = Variant ∨ tw.table = VariantInterleaved) →
      (cidx = 0 →
        ∃ v r, tw.fkeyTemp fl cidx = some (v, r) ∧
          1 ≤ v ∧ v ≤ fl.nMerchants) ∧
      (cidx = 1 →
        ∃ v r, tw.fkeyTemp fl cidx = some (v, r) ∧
          1 ≤ v ∧ v ≤ fl.nProducts)) := by
  have hmlt : (tw.rnd.intn fl.nMerchants).1 < fl.nMerchants := by
    simpa [GoRand.intn] using
      Nat.mod_lt (rawNext tw.rnd.seed tw.rnd.pos) hm
  have hplt : (tw.rnd.intn fl.nProducts).1 < fl.nProducts := by
    simpa [GoRand.intn] using
      Nat.mod_lt (rawNext tw.rnd.seed tw.rnd.pos) hp
  constructor
  · intro h4
    unfold tableWriter.fkeyTemp
    rw [if_pos h4]
    exact ⟨_, _, rfl, by omega, by omega⟩
  · intro h2
    have hne : ¬ (tw.table = Product ∨ tw.table = ProductInterleaved ∨
        tw.table = Store ∨ tw.table = StoreInterleaved) := by
      rcases h2 with h | h <;> rw [h] <;> decide
    constructor
    · intro hc0
      unfold tableWriter.fkeyTemp
      rw [if_neg hne, if_pos h2, if_pos hc0]
      exact ⟨_, _, rfl, by omega, by omega⟩
    · intro hc1
      subst hc1
      unfold tableWriter.fkeyTemp
      rw [if_neg hne, if_pos h2, if_neg (by decide : ¬ (1 : Nat) = 0),
        if_pos rfl]
      exact ⟨_, _, rfl, by omega, by omega⟩

/-- Spot check of `fkey_in_range` on the product writer at column 0. -/
theorem fkey_in_range_witness :
    0 < flSmall.nMerchants ∧ 0 < flSmall.nProducts ∧
    ((((newWriter flSmall Product).table = Product ∨
        (newWriter flSmall Product).table = ProductInterleaved ∨
        (newWriter flSmall Product).table = Store ∨
        (newWriter flSmall Product).table = StoreInterleaved) →
      ∃ v r, (newWriter flSmall Product).fkeyTemp flSmall 0 = some (v, r) ∧
        1 ≤ v ∧ v ≤ flSmall.nMerchants) ∧
     (((newWriter flSmall Product).table = Variant ∨
        (newWriter flSmall Product).table = VariantInterleaved) →
      ((0 : Nat) = 0 →
        ∃ v r, (newWriter flSmall Product).fkeyTemp flSmall 0
            = some (v, r) ∧
          1 ≤ v ∧ v ≤ flSmall.nMerchants) ∧
      ((0 : Nat) = 1 →
        ∃ v r, (newWriter flSmall Product).fkeyTemp flSmall 0
            = some (v, r) ∧
          1 ≤ v ∧ v ≤ flSmall.nProducts))) :=
  ⟨by decide, by decide,
    fkey_in_range flSmall (newWriter flSmall Product) 0
      (by decide) (by decide)⟩

/-- C4: the `insertData` loop consumes a positive row target `R` in batches
that are all of the constant size 500 except the last, which is `R mod 500`
when that remainder is non-zero; the sizes sum to exactly `R`, and
`insertData` is precisely `genValues` run once per such batch size. -/
theorem insert_batches_sizes (fl : Flags) (tw : tableWriter) (R : Nat)
    (hR : 0 < R) (hRt : tableRows fl tw.table = R) :
    (∀ s ∈ (loopSizes R batchSize).dropLast, s = batchSize) ∧
    (loopSizes R batchSize).getLast?
      = some (if R % batchSize = 0 then batchSize else R % batchSize) ∧
    (loopSizes R batchSize).sum = R ∧
    insertData fl tw = tw.genSeq fl (loopSizes R batchSize) := by
  have hchar := loopSizes_eq batchSize (by decide) R
  have hrep : (List.replicate (R / batchSize) batchSize).sum
      = R / batchSize * batchSize := by
    simp [List.sum_replicate, smul_eq_mul]
  refine ⟨?_, ?_, ?_, ?_⟩
  · intro s hs
    rw [hchar] at hs
    by_cases hmod : R % batchSize = 0
    · rw [if_pos hmod, List.append_nil] at hs
      have hq : 0 < R / batchSize :=
        Nat.div_pos (Nat.le_of_dvd hR (Nat.dvd_of_mod_eq_zero hmod))
          (by decide)
      obtain ⟨q, hq'⟩ :=
        Nat.exists_eq_succ_of_ne_zero (Nat.pos_iff_ne_zero.mp hq)
      rw [hq', List.replicate_succ', List.dropLast_concat] at hs
      exact List.eq_of_mem_replicate hs
    · rw [if_neg hmod, List.dropLast_concat] at hs
      exact List.eq_of_mem_replicate hs
  · rw [hchar]
    by_cases hmod : R % batchSize = 0
    · rw [if_pos hmod, if_pos hmod, List.append_nil]
      have hq : 0 < R / batchSize :=
        Nat.div_pos (Nat.le_of_dvd hR (Nat.dvd_of_mod_eq_zero hmod))
          (by decide)
      obtain ⟨q, hq'⟩ :=
        Nat.exists_eq_succ_of_ne_zero (Nat.pos_iff_ne_zero.mp hq)
      rw [hq', List.replicate_succ', List.getLast?_concat]
    · rw [if_neg hmod, if_neg hmod, List.getLast?_concat]
  · rw [hchar, List.sum_append]
    by_cases hmod : R % batchSize = 0
    · rw [if_pos hmod]
      simp only [hrep, List.sum_nil, Nat.add_zero, batchSize] at *
      omega
    · rw [if_neg hmod]
      simp only [hrep, List.sum_cons, List.sum_nil, Nat.add_zero,
        batchSize] at *
      omega
  · unfold insertData
    rw [hRt, insertLoop_eq_genSeq]

/-- Spot check of `insert_batches_sizes` on the merchant table with a row
target of 2. -/
theorem insert_batches_sizes_witness :
    0 < 2 ∧
    tableRows flSmall (newWriter flSmall Merchant).table = 2 ∧
    ((∀ s ∈ (loopSizes 2 batchSize).dropLast, s = batchSize) ∧
     (loopSizes 2 batchSize).getLast?
       = some (if 2 % batchSize = 0 then batchSize else 2 % batchSize) ∧
     (loopSizes 2 batchSize).sum = 2 ∧
     insertData flSmall (newWriter flSmall Merchant)
       = (newWriter flSmall Merchant).genSeq flSmall
           (loopSizes 2 batchSize)) :=
  ⟨by decide, by decide,
    insert_batches_sizes flSmall (newWriter flSmall Merchant) 2
      (by decide) (by decide)⟩

/-- C5: a table descriptor containing a column kind other than the five
recognized ones makes `genValues` abort at once — the `default` arm of its
switch is the Go panic, modeled as `none` — and the function has no
recoverable error channel (its Go signature returns only a byte slice), so
the condition is never surfaced as a runtime error value. -/
theorem unrecognized_kind_is_fatal (fl : Flags) (tw : tableWriter) (n : Nat)
    (hn : 0 < n) (hc : ∃ c ∈ tw.columnTypes, ¬ isRecognizedKind c) :
    tw.genValues fl n = none := by
  obtain ⟨m, rfl⟩ :=
    Nat.exists_eq_succ_of_ne_zero (Nat.pos_iff_ne_zero.mp hn)
  unfold tableWriter.genValues
  simp only [tableWriter.genTuples]
  rw [genRow_none_of_bad fl tw.columnTypes tw _ false 0 hc]

/-- Spot check of `unrecognized_kind_is_fatal` on the column kind `7`. -/
theorem unrecognized_kind_is_fatal_witness :
    0 < 1 ∧ (∃ c ∈ twBadKind.columnTypes, ¬ isRecognizedKind c) ∧
    twBadKind.genValues flSmall 1 = none :=
  ⟨by decide, by decide,
    unrecognized_kind_is_fatal flSmall twBadKind 1 (by decide) (by decide)⟩

/-- C3: for every catalog table, the primary-key cells emitted across all
batches of a writer's run — whatever the batch decomposition — form the
gap-free, strictly increasing sequence 1, 2, 3, …: the counter starts at 1
in `newWriter` and is read then post-incremented exactly once per generated
row in `genValues`, never reset and never shared; `insertData` itself is
exactly such a batch run, with the loop's own batch sizes. -/
theorem pkeys_gap_free (fl : Flags) (t : tableName) (ks : List Nat)
    (ht : t ∈ allCatalogTables)
    (h : ((newWriter fl t).genSeq fl ks).isSome = true) :
    ∃ bufs batches,
      (newWriter fl t).genSeq fl ks = some bufs ∧
      (newWriter fl t).batchRows fl ks = some batches ∧
      bufs = batches.map renderRows ∧
      ((batches.flatten).map (pkeyCellsOf (tableTypes t))).flatten
        = (List.range' 1 ks.sum).map itoa ∧
      insertData fl (newWriter fl t)
        = (newWriter fl t).genSeq fl
            (loopSizes (tableRows fl t) batchSize) := by
  have hseq := genSeq_eq fl ks (newWriter fl t)
  rw [hseq] at h
  obtain ⟨b, hb⟩ := Option.isSome_iff_exists.mp h
  rw [Option.map_eq_some'] at hb
  obtain ⟨batches, hbr, _⟩ := hb
  obtain ⟨blen, hcells⟩ := batchRows_some fl ks (newWriter fl t) batches hbr
  rw [show (newWriter fl t).columnTypes = tableTypes t from rfl,
    show (newWriter fl t).pkey = 1 from rfl,
    catalog_count_pkey t ht, Nat.mul_one] at hcells
  refine ⟨batches.map renderRows, batches, ?_, hbr, rfl, hcells, ?_⟩
  · rw [hseq, hbr]
    rfl
  · unfold insertData
    rw [insertLoop_eq_genSeq]
    rfl

/-- Spot check of `pkeys_gap_free`: merchant table, one batch of two rows. -/
theorem pkeys_gap_free_witness :
    Merchant ∈ allCatalogTables ∧
    ((newWriter flSmall Merchant).genSeq flSmall [2]).isSome = true ∧
    (∃ bufs batches,
      (newWriter flSmall Merchant).genSeq flSmall [2] = some bufs ∧
      (newWriter flSmall Merchant).batchRows flSmall [2] = some batches ∧
      bufs = batches.map renderRows ∧
      ((batches.flatten).map (pkeyCellsOf (tableTypes Merchant))).flatten
        = (List.range' 1 ([2] : List Nat).sum).map itoa ∧
      insertData flSmall (newWriter flSmall Merchant)
        = (newWriter flSmall Merchant).genSeq flSmall
            (loopSizes (tableRows flSmall Merchant) batchSize)) :=
  ⟨by decide, by decide,
    pkeys_gap_free flSmall Merchant [2] (by decide) (by decide)⟩

/-- C6: the connection pool is sized to the table count plus one (hence at
least that) for the data-generation phase, and the benchmark program's
`connectDB` applies its own, separately coded sizing for the phase in which
the concurrency workers run; both sizings equal the table count plus one for
either schema variant, and neither depends on the worker count. -/
theorem pool_sizing (v : schemaVariant) :
    (variantTables v).length + 1 ≤ loaderMaxOpenConns v ∧
    (variantTables v).length + 1 ≤ connectDBMaxOpenConns v ∧
    loaderMaxOpenConns v = (variantTables v).length + 1 ∧
    connectDBMaxOpenConns v = (variantTables v).length + 1 :=
  ⟨Nat.le_refl _, Nat.le_refl _, rfl, rfl⟩

/-- C7 is false of the code: not every read of the shared `numOps` counter
by the reporting goroutine is an atomic operation.  The per-tick
`ops := numOps` read is a plain load racing the workers' atomic increments;
only the two final-summary reads use `atomic.LoadUint64`. -/
theorem numOps_tick_read_not_atomic :
    ¬ ∀ a ∈ numOpsReportReads, a = SyncKind.atomic := by
  decide

theorem getD_mem_of_lt {α : Type} (l : List α) (d : α) :
    ∀ i, i < l.length → l.getD i d ∈ l := by
  induction l with
  | nil =>
    intro i h
    simp at h
  | cons a t ih =>
    intro i h
    cases i with
    | zero => simp
    | succ j =>
      simp only [List.getD_cons_succ]
      exact List.mem_cons_of_mem a (ih j (by simpa using h))

theorem textLoop_shape :
    ∀ (k : Nat) (r : GoRand) (scratch : List Char),
      ∃ mid r2, textLoop k r scratch = (scratch ++ mid, r2) ∧
        mid.length = k ∧ ∀ ch ∈ mid, ch ∈ textChars := by
  intro k
  induction k with
  | zero =>
    intro r scratch
    exact ⟨[], r, by simp [textLoop], rfl, by simp⟩
  | succ k ih =>
    intro r scratch
    obtain ⟨mid, r2, heq, hlen, hmem⟩ :=
      ih (r.intn textChars.length).2
        (scratch ++ [textChars.getD (r.intn textChars.length).1 ' '])
    refine ⟨textChars.getD (r.intn textChars.length).1 ' ' :: mid, r2,
      ?_, by simp [hlen], ?_⟩
    · simp only [textLoop]
      rw [heq]
      simp
    · intro ch hch
      rcases List.mem_cons.mp hch with he | hm
      · subst he
        have hlt : (r.intn textChars.length).1 < textChars.length :=
          Nat.mod_lt _ (by decide)
        exact getD_mem_of_lt textChars ' ' _ hlt
      · exact hmem ch hm

/-- C8: every `randText` value is exactly `textLen` characters, each drawn
from the fixed alphabet of letters and digits, wrapped in single-quote
string-literal quoting — so the serialized cell is exactly `textLen + 2`
bytes. -/
theorem randText_shape (tw : tableWriter) :
    (tw.randText).1.length = textLen + 2 ∧
    (tw.randText).1.head? = some '\'' ∧
    (tw.randText).1.getLast? = some '\'' ∧
    (((tw.randText).1.drop 1).dropLast).length = textLen ∧
    ∀ ch ∈ ((tw.randText).1.drop 1).dropLast, ch ∈ textChars := by
  obtain ⟨mid, r2, heq, hlen, hmem⟩ := textLoop_shape textLen tw.rnd ['\'']
  have hval : (tw.randText).1 = ('\'' :: mid) ++ ['\''] := by
    unfold tableWriter.randText
    dsimp only
    rw [List.take_zero, List.nil_append, heq]
    rfl
  have hdl : ((('\'' :: mid) ++ ['\'']).drop 1).dropLast = mid := by
    rw [List.cons_append, List.drop_succ_cons, List.drop_zero,
      List.dropLast_concat]
  rw [hval]
  refine ⟨?_, rfl, List.getLast?_concat _, ?_, ?_⟩
  · simp [hlen, textLen]
  · rw [hdl, hlen]
  · intro ch hch
    rw [hdl] at hch
    exact hmem ch hch

/-- C9: every table in the built-in catalog has exactly one `PkeyInt`
column, so a `genValues n` call advances the writer's primary-key counter by
exactly `n`; consecutive batches of the same writer therefore continue the
sequence contiguously, with no reuse and no skip across batch boundaries. -/
theorem single_pkey_advance (fl : Flags) (t : tableName) (tw : tableWriter)
    (n : Nat) (ht : t ∈ allCatalogTables)
    (htw : tw.columnTypes = tableTypes t)
    (h : (tw.genValues fl n).isSome = true) :
    (tableTypes t).count columnType.PkeyInt = 1 ∧
    ∃ out tw2, tw.genValues fl n = some (out, tw2) ∧
      tw2.pkey = tw.pkey + n ∧ tw2.columnTypes = tw.columnTypes := by
  have hcnt := catalog_count_pkey t ht
  refine ⟨hcnt, ?_⟩
  rw [genValues_eq] at h
  obtain ⟨b, hb⟩ := Option.isSome_iff_exists.mp h
  rw [Option.map_eq_some'] at hb
  obtain ⟨p, hp, _⟩ := hb
  obtain ⟨rlen, rtab, rcols, rbuf, rrows, rpk, rcells⟩ :=
    tupleRows_some fl n tw p.1 p.2 (by rw [hp])
  refine ⟨renderRows p.1, p.2, by rw [genValues_eq, hp]; rfl, ?_, rcols⟩
  rw [rpk, htw, hcnt, Nat.mul_one]

/-- Spot check of `single_pkey_advance`: merchant writer, two rows. -/
theorem single_pkey_advance_witness :
    Merchant ∈ allCatalogTables ∧
    (newWriter flSmall Merchant).columnTypes = tableTypes Merchant ∧
    ((newWriter flSmall Merchant).genValues flSmall 2).isSome = true ∧
    ((tableTypes Merchant).count columnType.PkeyInt = 1 ∧
     ∃ out tw2, (newWriter flSmall Merchant).genValues flSmall 2
         = some (out, tw2) ∧
       tw2.pkey = (newWriter flSmall Merchant).pkey + 2 ∧
       tw2.columnTypes = (newWriter flSmall Merchant).columnTypes) :=
  ⟨by decide, rfl, by decide,
    single_pkey_advance flSmall Merchant (newWriter flSmall Merchant) 2
      (by decide) rfl (by decide)⟩

/-- C10: although the values buffer and the per-value scratch buffer are
reused across batches, every successful `genValues n` call returns exactly
`n` parenthesized tuples separated by single commas, one cell per column of
the table's column-type list, with no residual content from any previous
batch: the output and the resulting writer state are the same whatever the
values buffer held before the call (the buffer is truncated to length zero
at the start, and each cell is copied into the output). -/
theorem genValues_batch_structure (fl : Flags) (tw : tableWriter) (n : Nat)
    (h : (tw.genValues fl n).isSome = true) :
    ∃ (out : List Char) (tw2 : tableWriter)
      (rows : List (List (List Char))),
      tw.genValues fl n = some (out, tw2) ∧
      rows.length = n ∧
      (∀ r ∈ rows, r.length = tw.columnTypes.length) ∧
      out = joinComma false (rows.map renderRow) ∧
      ∀ bu, tableWriter.genValues fl { tw with valuesBuf := bu } n
          = some (out, { tw2 with valuesBuf := bu }) := by
  rw [genValues_eq] at h
  obtain ⟨b, hb⟩ := Option.isSome_iff_exists.mp h
  rw [Option.map_eq_some'] at hb
  obtain ⟨p, hp, _⟩ := hb
  obtain ⟨rlen, rtab, rcols, rbuf, rrows, rpk, rcells⟩ :=
    tupleRows_some fl n tw p.1 p.2 (by rw [hp])
  refine ⟨renderRows p.1, p.2, p.1, by rw [genValues_eq, hp]; rfl,
    rlen, rrows, rfl, ?_⟩
  intro bu
  rw [genValues_setBuf, genValues_eq, hp]
  rfl

/-- Spot check of `genValues_batch_structure`: variant writer, one row. -/
theorem genValues_batch_structure_witness :
    ((newWriter flSmall Variant).genValues flSmall 1).isSome = true ∧
    (∃ (out : List Char) (tw2 : tableWriter)
      (rows : List (List (List Char))),
      (newWriter flSmall Variant).genValues flSmall 1 = some (out, tw2) ∧
      rows.length = 1 ∧
      (∀ r ∈ rows,
        r.length = (newWriter flSmall Variant).columnTypes.length) ∧
      out = joinComma false (rows.map renderRow) ∧
      ∀ bu, tableWriter.genValues flSmall
          { newWriter flSmall Variant with valuesBuf := bu } 1
          = some (out, { tw2 with valuesBuf := bu })) :=
  ⟨by decide,
    genValues_batch_structure flSmall (newWriter flSmall Variant) 1
      (by decide)⟩

end RoachBench

